import Mathlib

/-!
Verification of the FolderEx hierarchy-construction and rendering engine.

The definitions below are a shallow embedding of the tree-building,
sorting and rendering logic of src/src/components/TextFolderStructure.jsx
(the variant that carries a fileMap) and of the expansion-state helpers
areAllFoldersExpanded / getAllFolderPaths of the FolderStructure component.

Modelling conventions:
* JS objects of shape {name, type, path, children?} become the Node
  inductive; the opaque source handles (zipEntry / fileEntry) are never
  inspected by the core and are dropped from the model.
* localeCompare on names is modelled as code-point lexicographic
  comparison (the ≤ order on String).
* Array.prototype.sort with a comparator is a stable comparator sort
  (ES2019); it is modelled by List.insertionSort, which is stable and
  sorts with respect to the same relation.
* JSZip's content.files is modelled as the list of (relativePath, dir)
  pairs in enumeration order; loadAsync is modelled as a thunk so that
  theorems can quantify over it.
* webkit directory readers deliver entries in successive batches; a
  directory listing is modelled as Option (List (List FsEntry)):
  none models a reader whose readEntries invocation reports an error
  (the source maps this to resolve([])), some batches models a reader
  whose successive readEntries calls would return those batches.
-/

namespace FolderEx

/-- Kind of a tree node; the source stores the strings "directory" and
"file" in the type field. -/
inductive NodeType where
  | directory
  | file
deriving DecidableEq, Repr

/-- One node of the canonical tree. Directory nodes carry an ordered
children list; file nodes carry none (in the source a file object simply
has no children field). -/
inductive Node where
  | dir (name : String) (path : String) (children : List Node)
  | file (name : String) (path : String)
deriving Repr

/-- Name field of a node. -/
def Node.name : Node → String
  | .dir n _ _ => n
  | .file n _ => n

/-- Path field of a node. -/
def Node.path : Node → String
  | .dir _ p _ => p
  | .file _ p => p

/-- Type field of a node. -/
def Node.type : Node → NodeType
  | .dir _ _ _ => NodeType.directory
  | .file _ _ => NodeType.file

/-- Children field of a node (empty for files, which have none). -/
def Node.children : Node → List Node
  | .dir _ _ cs => cs
  | .file _ _ => []

/-- The comparator of sortStructure (TextFolderStructure.jsx lines
122-128) and of the per-level sort in readDirectoryStructure (lines
165-168), read as the relation "a sorts no later than b": equal types
compare by name (localeCompare, modelled as code-point order), otherwise
directories come first. -/
def NodeLe (a b : Node) : Prop :=
  if a.type = b.type then a.name ≤ b.name else a.type = NodeType.directory

instance : DecidableRel NodeLe := fun a b =>
  inferInstanceAs
    (Decidable (if a.type = b.type then a.name ≤ b.name else a.type = NodeType.directory))

/-- One level of the sort pass: node.children.sort(comparator), a stable
comparator sort. -/
def sortChildren (cs : List Node) : List Node :=
  List.insertionSort NodeLe cs

mutual
/-- sortStructure (TextFolderStructure.jsx lines 122-129): sort every
directory's children with the comparator, recursively.  The source sorts
a level in place and then recurses into the (sorted) children; since the
comparator reads only name and type, which the recursion preserves, and
the sort is stable, recursing first and sorting afterwards builds the
same list, and that order makes the recursion structural. -/
def sortStructure : Node → Node
  | .file n p => .file n p
  | .dir n p cs => .dir n p (sortChildren (sortStructureList cs))

/-- Recursion of sortStructure over a children list. -/
def sortStructureList : List Node → List Node
  | [] => []
  | c :: cs => sortStructure c :: sortStructureList cs
end

/-! ### Archive tree builder (extractZipStructure, lines 71-135) -/

/-- Split a character list at every separator occurrence, keeping empty
pieces, exactly as JS split with a one-character separator does. -/
def splitCharsAux (sep : Char) : List Char → List Char → List String
  | [], acc => [String.mk acc.reverse]
  | c :: cs, acc =>
    if c = sep then String.mk acc.reverse :: splitCharsAux sep cs []
    else splitCharsAux sep cs (c :: acc)

/-- relativePath.split('/').filter(part => part.length > 0).  The split
is computed over the character list so that it is structurally recursive
(String.splitOn is the same function on one-character separators). -/
def splitParts (relativePath : String) : List String :=
  (splitCharsAux '/' relativePath.data []).filter (fun part => decide (0 < part.length))

/-- Replace the first child whose name matches; the source mutates the
object returned by children.find, which is the first such child. -/
def replaceFirst : List Node → String → Node → List Node
  | [], _, _ => []
  | c :: cs, nm, nd => if c.name == nm then nd :: cs else c :: replaceFirst cs nm nd

/-- The inner parts.forEach walk of extractZipStructure (lines 92-119)
for one archive entry: descend from the current node through the segment
list, creating missing nodes.  isDirectory is zipEntry.dir at the last
segment and true before it.  Descending into an existing file node with
segments still to process dereferences the missing children field in the
source (a TypeError that aborts the whole build); this is the none
result. -/
def insertParts (zipDir : Bool) : Node → List String → Option Node
  | t, [] => some t
  | Node.file _ _, _ :: _ => none
  | Node.dir name path cs, part :: rest =>
    let isDirectory := zipDir || !rest.isEmpty
    match cs.find? (fun child => child.name == part) with
    | some existing =>
      if isDirectory then
        match insertParts zipDir existing rest with
        | some ex' => some (Node.dir name path (replaceFirst cs part ex'))
        | none => none
      else
        some (Node.dir name path cs)
    | none =>
      if isDirectory then
        match insertParts zipDir (Node.dir part (path ++ "/" ++ part) []) rest with
        | some nd => some (Node.dir name path (cs ++ [nd]))
        | none => none
      else
        some (Node.dir name path (cs ++ [Node.file part (path ++ "/" ++ part)]))

/-- The Object.keys(content.files).forEach loop (lines 87-120): fold the
per-entry walk over the entry list in enumeration order. -/
def extractEntries : Node → List (String × Bool) → Option Node
  | t, [] => some t
  | t, e :: es =>
    match insertParts e.2 t (splitParts e.1) with
    | some t' => extractEntries t' es
    | none => none

/-- file.name.replace(/\.zip$/i, ''): drop one trailing ".zip",
case-insensitively (computed over the character list so that it is
kernel-evaluable). -/
def stripZipExt (s : String) : String :=
  let cs := s.data
  if 4 ≤ cs.length ∧ (cs.drop (cs.length - 4)).map Char.toLower = ['.', 'z', 'i', 'p'] then
    String.mk (cs.take (cs.length - 4))
  else s

/-- The synthetic archive root (lines 79-85): named from the archive
filename with the suffix removed, empty path, no children. -/
def zipRoot (fileName : String) : Node :=
  Node.dir (stripZipExt fileName) "" []

/-- Entry walk plus final sort pass: the part of extractZipStructure
after a successful decode. -/
def extractBuild (fileName : String) (entries : List (String × Bool)) : Option Node :=
  match extractEntries (zipRoot fileName) entries with
  | some t => some (sortStructure t)
  | none => none

/-- MAX_FILE_SIZE_MB (line 25). -/
def MAX_FILE_SIZE_MB : Nat := 50

/-- The catch block (line 133) wraps every failure message. -/
def zipFailure (msg : String) : String := "Failed to process ZIP: " ++ msg

/-- Stand-in for the message of the TypeError raised when the walk
dereferences the children field of a file node. -/
def typeErrorMsg : String := "current.children is undefined"

/-- Everything extractZipStructure does after the size gate: decode the
archive (zip.loadAsync, modelled as a thunk) and build the tree; any
failure is wrapped by the catch block. -/
def afterSizeCheck (fileName : String)
    (decode : Unit → Except String (List (String × Bool))) : Except String Node :=
  match decode () with
  | Except.error m => Except.error (zipFailure m)
  | Except.ok entries =>
    match extractBuild fileName entries with
    | some t => Except.ok t
    | none => Except.error (zipFailure typeErrorMsg)

/-- extractZipStructure (lines 71-135): reject files over the size limit
before decoding, otherwise decode and build. -/
def extractZipStructure (fileName : String) (fileSize : Nat)
    (decode : Unit → Except String (List (String × Bool))) : Except String Node :=
  if fileSize > MAX_FILE_SIZE_MB * 1024 * 1024 then
    Except.error (zipFailure ("File exceeds " ++ toString MAX_FILE_SIZE_MB ++ "MB limit"))
  else afterSizeCheck fileName decode

/-! ### Directory tree builder (readDirectoryStructure, lines 137-171) -/

/-- A live filesystem entry as the builder sees it.  A directory carries
the batched output of its reader: none when readEntries reports an error,
some batches when successive readEntries calls would deliver those
batches. -/
inductive FsEntry where
  | dir (name : String) (listing : Option (List (List FsEntry)))
  | file (name : String)
deriving Repr

/-- Name of a filesystem entry. -/
def FsEntry.name : FsEntry → String
  | .dir n _ => n
  | .file n => n

/-- currentPath ? currentPath + "/" + entry.name : entry.name
(line 139; the empty string is the only falsy string). -/
def dirPath (currentPath name : String) : String :=
  if currentPath = "" then name else currentPath ++ "/" ++ name

mutual
/-- readDirectoryStructure (lines 137-171).  The source awaits a single
readEntries invocation, so only the first batch of the listing is read;
a reader error resolves to the empty list.  Each level is sorted with the
comparator as it is completed (lines 165-168).  The file case is
unreachable: both call sites guard on isDirectory before recursing. -/
def readDirectoryStructure : FsEntry → String → Node
  | .dir name none, currentPath =>
    Node.dir name (dirPath currentPath name) (sortChildren [])
  | .dir name (some []), currentPath =>
    Node.dir name (dirPath currentPath name) (sortChildren [])
  | .dir name (some (batch :: _)), currentPath =>
    Node.dir name (dirPath currentPath name)
      (sortChildren (readEntryItems batch (dirPath currentPath name)))
  | .file name, currentPath =>
    Node.file name (dirPath currentPath name)

/-- The for-loop over the entries of one directory (lines 151-163):
recurse into subdirectories, make file leaves otherwise. -/
def readEntryItems : List FsEntry → String → List Node
  | [], _ => []
  | .dir n listing :: rest, path =>
    readDirectoryStructure (.dir n listing) path :: readEntryItems rest path
  | .file n :: rest, path =>
    Node.file n (path ++ "/" ++ n) :: readEntryItems rest path
end

/-! ### Text renderer (renderStructure, lines 213-235) -/

mutual
/-- The non-root branch of renderStructure: connector by last-child
position, trailing slash for directories, single line for files and
empty directories, continuation markers for the children of the rest. -/
def renderNode : Node → String → Bool → List String
  | .file name _, pfx, isLast =>
    [pfx ++ (if isLast then "└── " else "├── ") ++ name]
  | .dir name _ [], pfx, isLast =>
    [pfx ++ (if isLast then "└── " else "├── ") ++ name ++ "/"]
  | .dir name _ (c :: cs), pfx, isLast =>
    (pfx ++ (if isLast then "└── " else "├── ") ++ name ++ "/") ::
      renderChildren (c :: cs) (pfx ++ (if isLast then "    " else "│   "))

/-- node.children.flatMap with isLast = (i === children.length - 1). -/
def renderChildren : List Node → String → List String
  | [], _ => []
  | [c], pfx => renderNode c pfx true
  | c :: c' :: cs, pfx => renderNode c pfx false ++ renderChildren (c' :: cs) pfx
end

/-- The root call of renderStructure (isRoot = true): the root line is
name plus a slash with no connector, and the root's children render with
the fixed four-space unit as their starting continuation.  A file root is
unreachable in the source (it would dereference a missing children
field). -/
def renderStructure : Node → List String
  | .dir name _ cs => (name ++ "/") :: renderChildren cs "    "
  | .file name _ => [name ++ "/"]

/-! ### Expansion state (FolderStructure component) -/

mutual
/-- getAllFolderPaths (part_003 lines 802-811): the paths of exactly the
directory nodes, node first, then its children left to right. -/
def getAllFolderPaths : Node → List String
  | .file _ _ => []
  | .dir _ p cs => p :: getAllFolderPathsList cs

/-- The forEach accumulation of getAllFolderPaths over a children
list. -/
def getAllFolderPathsList : List Node → List String
  | [] => []
  | c :: cs => getAllFolderPaths c ++ getAllFolderPathsList cs
end

/-- areAllFoldersExpanded (part_003 lines 182-186): false without a
tree, otherwise every folder path must be present and there must be at
least one. -/
def areAllFoldersExpanded (struct : Option Node) (expandedFolders : List String) : Bool :=
  match struct with
  | none => false
  | some t =>
    let allPaths := getAllFolderPaths t
    decide (0 < allPaths.length) && allPaths.all (fun p => expandedFolders.contains p)

/-! ### Specification-side predicates and helpers used by the theorems -/

/-- The first-defined of two optional values (first-writer-wins merge of
node kinds along an entry fold). -/
def oElse {α : Type} (a b : Option α) : Option α :=
  match a with
  | some x => some x
  | none => b

/-- Kind of the node reached from t by following a list of name
segments, descending with the same children.find lookup the builder
uses. -/
def memKind : Node → List String → Option NodeType
  | t, [] => some t.type
  | .file _ _, _ :: _ => none
  | .dir _ _ cs, s :: rest =>
    match cs.find? (fun child => child.name == s) with
    | some c => memKind c rest
    | none => none

/-- Lookup semantics of a bare builder root: the empty segment path is a
directory, everything else is absent. -/
def rootMem : List String → Option NodeType
  | [] => some NodeType.directory
  | _ :: _ => none

/-- Kind that one archive entry walk (segment list plus directory flag)
implies for a segment path: proper prefixes of the walk are directories,
the full walk is a directory exactly when the flag is set. -/
def impliedKind (parts : List String) (zipDir : Bool) (p : List String) : Option NodeType :=
  if p ≠ [] ∧ p <+: parts then
    some (if zipDir = true ∨ p.length < parts.length then NodeType.directory
          else NodeType.file)
  else none

/-- impliedKind of a raw archive entry. -/
def segKind (e : String × Bool) (p : List String) : Option NodeType :=
  impliedKind (splitParts e.1) e.2 p

/-- Two optional kinds that do not disagree. -/
def kindsAgree : Option NodeType → Option NodeType → Prop
  | some k1, some k2 => k1 = k2
  | _, _ => True

instance : ∀ a b, Decidable (kindsAgree a b) := fun a b => by
  cases a <;> cases b <;> simp only [kindsAgree] <;> infer_instance

/-- The hypothesis of the order-insensitivity claim: no segment path is
implied as a directory by one entry and as a file by another. -/
def NoConflict (entries : List (String × Bool)) : Prop :=
  ∀ e1 ∈ entries, ∀ e2 ∈ entries, ∀ p ∈ (splitParts e1.1).inits,
    kindsAgree (segKind e1 p) (segKind e2 p)

instance (entries : List (String × Bool)) : Decidable (NoConflict entries) := by
  unfold NoConflict
  infer_instance

mutual
/-- At every level of the tree, no two siblings share a name. -/
def namesNodup : Node → Prop
  | .file _ _ => True
  | .dir _ _ cs => (cs.map Node.name).Nodup ∧ namesNodupList cs

/-- namesNodup for every member of a children list. -/
def namesNodupList : List Node → Prop
  | [] => True
  | c :: cs => namesNodup c ∧ namesNodupList cs
end

mutual
/-- At every level, a child's path is its parent's path, a slash and the
child's name. -/
def pathsOk : Node → Prop
  | .file _ _ => True
  | .dir _ p cs => (∀ c ∈ cs, c.path = p ++ "/" ++ c.name) ∧ pathsOkList cs

/-- pathsOk for every member of a children list. -/
def pathsOkList : List Node → Prop
  | [] => True
  | c :: cs => pathsOk c ∧ pathsOkList cs
end

mutual
/-- Every directory's children, at every depth, are ordered by the sort
comparator: directories before files, names nondecreasing within a
kind. -/
def treeSorted : Node → Prop
  | .file _ _ => True
  | .dir _ _ cs => List.Sorted NodeLe cs ∧ treeSortedList cs

/-- treeSorted for every member of a children list. -/
def treeSortedList : List Node → Prop
  | [] => True
  | c :: cs => treeSorted c ∧ treeSortedList cs
end

/-- The tree of the specification's rendering example: directory proj
holding file README.md and directory src, src holding file index.js and
directory utils, utils holding file helpers.js. -/
def projTree : Node :=
  Node.dir "proj" "proj"
    [Node.file "README.md" "proj/README.md",
     Node.dir "src" "proj/src"
       [Node.file "index.js" "proj/src/index.js",
        Node.dir "utils" "proj/src/utils"
          [Node.file "helpers.js" "proj/src/utils/helpers.js"]]]

/-! ## Theorems -/

/-- C3 counterexample: rendering the example tree after the sort pass
does not produce the six lines the specification displays — the sort
pass puts the directory src before the file README.md, while the
displayed example lists README.md first. -/
theorem spec_example_render_mismatch :
    renderStructure (sortStructure projTree) ≠
      ["proj/",
       "    ├── README.md",
       "    └── src/",
       "        ├── index.js",
       "        └── utils/",
       "            └── helpers.js"] := by
  decide

/-- C3 (amended): rendering the example tree after the sort pass
produces six lines in dirs-first order: the root line, src with its
subtree first (continued with box-drawing bars because src is not the
last child), then README.md. -/
theorem proj_example_renders_sorted :
    renderStructure (sortStructure projTree) =
      ["proj/",
       "    ├── src/",
       "    │   ├── utils/",
       "    │   │   └── helpers.js",
       "    │   └── index.js",
       "    └── README.md"] := by
  rfl

/-- C5: an archive larger than 50 MiB is rejected with the size-limit
failure, and the result does not depend on the decode thunk at all
(loadAsync is never consulted); at or below the limit the size check
passes and the result is exactly the post-check computation. -/
theorem size_limit_rejects_before_decode (fileName : String) (fileSize : Nat)
    (decode decode' : Unit → Except String (List (String × Bool))) :
    (fileSize > 50 * 1024 * 1024 →
      extractZipStructure fileName fileSize decode =
          Except.error "Failed to process ZIP: File exceeds 50MB limit" ∧
        extractZipStructure fileName fileSize decode =
          extractZipStructure fileName fileSize decode') ∧
    (fileSize ≤ 50 * 1024 * 1024 →
      extractZipStructure fileName fileSize decode = afterSizeCheck fileName decode) := by
  have hmax : MAX_FILE_SIZE_MB * 1024 * 1024 = 50 * 1024 * 1024 := rfl
  constructor
  · intro h
    have hc : fileSize > MAX_FILE_SIZE_MB * 1024 * 1024 := by rw [hmax]; exact h
    constructor
    · unfold extractZipStructure
      rw [if_pos hc]
      rfl
    · unfold extractZipStructure
      rw [if_pos hc, if_pos hc]
  · intro h
    have hc : ¬ fileSize > MAX_FILE_SIZE_MB * 1024 * 1024 := by rw [hmax]; omega
    unfold extractZipStructure
    rw [if_neg hc]

/-- Witness for C5 at the concrete sizes one byte over and exactly at
the 50 MiB limit. -/
theorem size_limit_rejects_before_decode_witness :
    extractZipStructure "big.zip" 52428801 (fun _ => Except.ok []) =
        Except.error "Failed to process ZIP: File exceeds 50MB limit" ∧
      extractZipStructure "ok.zip" 52428800 (fun _ => Except.ok []) =
        afterSizeCheck "ok.zip" (fun _ => Except.ok []) :=
  ⟨((size_limit_rejects_before_decode "big.zip" 52428801
      (fun _ => Except.ok []) (fun _ => Except.ok [])).1 (by decide)).1,
   (size_limit_rejects_before_decode "ok.zip" 52428800
      (fun _ => Except.ok []) (fun _ => Except.ok [])).2 (by decide)⟩

/-- C7: the directory builder issues a single readEntries call, so for a
reader that delivers its entries in two batches only the first batch
reaches the children list — b.txt from the second batch is silently
dropped. -/
theorem only_first_readEntries_batch_used :
    readDirectoryStructure
        (.dir "top" (some [[.file "a.txt"], [.file "b.txt"]])) "" =
      Node.dir "top" "top" [Node.file "a.txt" "top/a.txt"] := by
  rfl

/-- C8: a directory whose entry listing fails is produced with an empty
children list, and a failing directory inside a larger listing does not
stop the build — the sibling file is still read and no error is
surfaced (the builder is a total function into trees). -/
theorem listing_failure_degrades_to_empty
    (pname dname fname currentPath : String) :
    readDirectoryStructure (.dir dname none) currentPath =
        Node.dir dname (dirPath currentPath dname) [] ∧
      readDirectoryStructure
          (.dir pname (some [[.dir dname none, .file fname]])) currentPath =
        Node.dir pname (dirPath currentPath pname)
          [Node.dir dname (dirPath (dirPath currentPath pname) dname) [],
           Node.file fname (dirPath currentPath pname ++ "/" ++ fname)] := by
  constructor
  · rfl
  · rfl

/-- C9: areAllFoldersExpanded is true exactly when there is a tree and
every folder path collected by getAllFolderPaths is in the expanded
set; with no tree it is false.  The hypothesis records the tree
invariant that a present root is always a directory (both builders only
produce directory roots), which makes the collected path list
nonempty. -/
theorem areAllFoldersExpanded_iff (struct : Option Node)
    (expandedFolders : List String)
    (hroot : ∀ t, struct = some t → t.type = NodeType.directory) :
    areAllFoldersExpanded struct expandedFolders = true ↔
      ∃ t, struct = some t ∧
        ∀ p ∈ getAllFolderPaths t, p ∈ expandedFolders := by
  cases struct with
  | none => simp [areAllFoldersExpanded]
  | some t =>
    cases t with
    | file n p =>
      have h := hroot (.file n p) rfl
      simp [Node.type] at h
    | dir n p cs =>
      simp [areAllFoldersExpanded, getAllFolderPaths, List.all_eq_true,
        List.contains, List.elem_iff]

/-- Witness for C9 on a two-directory tree with both paths expanded. -/
theorem areAllFoldersExpanded_iff_witness :
    areAllFoldersExpanded (some (Node.dir "a" "a" [Node.dir "b" "a/b" []]))
      ["a", "a/b"] = true :=
  (areAllFoldersExpanded_iff
      (some (Node.dir "a" "a" [Node.dir "b" "a/b" []])) ["a", "a/b"]
      (by intro t ht; cases ht; rfl)).mpr
    ⟨_, rfl, by decide⟩

/-- C2 counterexample: the archive builder builds a child of the
empty-path root with path "/a.txt", a leading slash, not the bare name
"a.txt" the claim requires. -/
theorem archive_root_child_path_has_leading_slash :
    extractBuild "r.zip" [("a.txt", false)] =
        some (Node.dir "r" "" [Node.file "a.txt" "/a.txt"]) ∧
      "/a.txt" ≠ "a.txt" := by
  exact ⟨rfl, by decide⟩

/-! ### Order properties of the comparator -/

theorem nodeLe_total : ∀ a b : Node, NodeLe a b ∨ NodeLe b a := by
  intro a b
  unfold NodeLe
  by_cases h : a.type = b.type
  · rw [if_pos h, if_pos h.symm]
    exact le_total a.name b.name
  · rw [if_neg h, if_neg (fun hh => h hh.symm)]
    cases ha : a.type <;> cases hb : b.type <;> simp_all

theorem nodeLe_trans : ∀ {a b c : Node}, NodeLe a b → NodeLe b c → NodeLe a c := by
  intro a b c h1 h2
  unfold NodeLe at h1 h2 ⊢
  by_cases hab : a.type = b.type <;> by_cases hbc : b.type = c.type
  · rw [if_pos hab] at h1
    rw [if_pos hbc] at h2
    rw [if_pos (hab.trans hbc)]
    exact le_trans h1 h2
  · rw [if_pos hab] at h1
    rw [if_neg hbc] at h2
    rw [if_neg (fun h => hbc (hab.symm.trans h))]
    rw [hab]
    exact h2
  · rw [if_neg hab] at h1
    rw [if_pos hbc] at h2
    rw [if_neg (fun h => hab (h.trans hbc.symm))]
    exact h1
  · rw [if_neg hab] at h1
    rw [if_neg hbc] at h2
    exact absurd (h1.trans h2.symm) hab

instance : IsTotal Node NodeLe := ⟨nodeLe_total⟩

instance : IsTrans Node NodeLe := ⟨fun _ _ _ => nodeLe_trans⟩

/-! ### Induction principles for the nested tree types -/

theorem node_ind (P : Node → Prop)
    (hfile : ∀ n p, P (.file n p))
    (hdir : ∀ n p cs, (∀ c ∈ cs, P c) → P (.dir n p cs)) :
    ∀ t, P t := by
  have H : ∀ (n : Nat) (t : Node), sizeOf t ≤ n → P t := by
    intro n
    induction n with
    | zero =>
      intro t ht
      cases t <;> simp only [Node.file.sizeOf_spec, Node.dir.sizeOf_spec] at ht <;> omega
    | succ n ih =>
      intro t ht
      cases t with
      | file nm pa => exact hfile nm pa
      | dir nm pa cs =>
        refine hdir nm pa cs (fun c hc => ih c ?_)
        have := List.sizeOf_lt_of_mem hc
        simp only [Node.dir.sizeOf_spec] at ht
        omega
  exact fun t => H (sizeOf t) t le_rfl

theorem fsentry_ind (P : FsEntry → Prop)
    (hfile : ∀ n, P (.file n))
    (hdir : ∀ n listing,
      (∀ batches, listing = some batches → ∀ batch ∈ batches, ∀ e ∈ batch, P e) →
      P (.dir n listing)) :
    ∀ e, P e := by
  have H : ∀ (n : Nat) (e : FsEntry), sizeOf e ≤ n → P e := by
    intro n
    induction n with
    | zero =>
      intro e ht
      cases e <;> simp only [FsEntry.file.sizeOf_spec, FsEntry.dir.sizeOf_spec] at ht <;> omega
    | succ n ih =>
      intro e ht
      cases e with
      | file nm => exact hfile nm
      | dir nm listing =>
        refine hdir nm listing (fun batches hb batch hbm e he => ih e ?_)
        subst hb
        have h1 := List.sizeOf_lt_of_mem he
        have h2 := List.sizeOf_lt_of_mem hbm
        simp only [FsEntry.dir.sizeOf_spec, Option.some.sizeOf_spec] at ht
        omega
  exact fun e => H (sizeOf e) e le_rfl

/-! ### The sort pass orders every level (C1) -/

theorem treeSortedList_iff (cs : List Node) :
    treeSortedList cs ↔ ∀ c ∈ cs, treeSorted c := by
  induction cs with
  | nil => simp [treeSortedList]
  | cons c cs ih => simp [treeSortedList, ih]

theorem sortStructureList_eq_map (cs : List Node) :
    sortStructureList cs = cs.map sortStructure := by
  induction cs with
  | nil => rfl
  | cons c cs ih => simp [sortStructureList, ih]

theorem treeSorted_sortStructure : ∀ t, treeSorted (sortStructure t) := by
  intro t
  induction t using node_ind with
  | hfile n p => simp [sortStructure, treeSorted]
  | hdir n p cs ih =>
    simp only [sortStructure, treeSorted]
    constructor
    · exact List.sorted_insertionSort NodeLe _
    · rw [treeSortedList_iff]
      intro c hc
      rw [sortChildren, (List.perm_insertionSort NodeLe _).mem_iff,
        sortStructureList_eq_map, List.mem_map] at hc
      obtain ⟨x, hx, rfl⟩ := hc
      exact ih x hx

theorem treeSorted_readEntryItems (items : List FsEntry) (path : String)
    (h : ∀ e ∈ items, ∀ cp, treeSorted (readDirectoryStructure e cp)) :
    ∀ c ∈ readEntryItems items path, treeSorted c := by
  induction items with
  | nil => simp [readEntryItems]
  | cons e rest ih =>
    cases e with
    | dir n listing =>
      intro c hc
      rw [readEntryItems] at hc
      rcases List.mem_cons.mp hc with hc | hc
      · subst hc; exact h _ (List.mem_cons_self _ _) path
      · exact ih (fun e he cp => h e (List.mem_cons_of_mem _ he) cp) c hc
    | file n =>
      intro c hc
      rw [readEntryItems] at hc
      rcases List.mem_cons.mp hc with hc | hc
      · subst hc; simp [treeSorted]
      · exact ih (fun e he cp => h e (List.mem_cons_of_mem _ he) cp) c hc

theorem treeSorted_readDirectoryStructure :
    ∀ (e : FsEntry) (cp : String), treeSorted (readDirectoryStructure e cp) := by
  intro e
  induction e using fsentry_ind with
  | hfile n => intro cp; simp [readDirectoryStructure, treeSorted]
  | hdir n listing ih =>
    intro cp
    match listing, ih with
    | none, _ => simp [readDirectoryStructure, treeSorted, sortChildren, treeSortedList]
    | some [], _ => simp [readDirectoryStructure, treeSorted, sortChildren, treeSortedList]
    | some (batch :: rest), ih =>
      rw [readDirectoryStructure]
      refine ⟨List.sorted_insertionSort NodeLe _, ?_⟩
      rw [treeSortedList_iff]
      intro c hc
      rw [sortChildren, (List.perm_insertionSort NodeLe _).mem_iff] at hc
      exact treeSorted_readEntryItems _ _
        (fun e he cp' => ih _ rfl batch (List.mem_cons_self _ _) e he cp') c hc

/-- C1: after the sort pass — sortStructure for the archive builder and
the per-level sorts of readDirectoryStructure for the directory builder —
every directory's children at every depth are pairwise ordered by the
comparator: directories precede files and, within a kind, names are
nondecreasing in the (modelled) localeCompare order. -/
theorem sort_pass_orders_every_level :
    (∀ t, treeSorted (sortStructure t)) ∧
      ∀ (e : FsEntry) (cp : String), treeSorted (readDirectoryStructure e cp) :=
  ⟨treeSorted_sortStructure, treeSorted_readDirectoryStructure⟩

/-! ### Lemmas about the entry walk of the archive builder -/

@[simp] theorem oElse_some {α : Type} (x : α) (b : Option α) :
    oElse (some x) b = some x := rfl

@[simp] theorem oElse_none {α : Type} (b : Option α) : oElse none b = b := rfl

theorem find?_replaceFirst_same (cs : List Node) (nm : String) (nd ex : Node)
    (hf : cs.find? (fun c => c.name == nm) = some ex) (hnd : nd.name = ex.name) :
    (replaceFirst cs nm nd).find? (fun c => c.name == nm) = some nd := by
  induction cs with
  | nil => simp at hf
  | cons c cs ih =>
    by_cases hc : c.name = nm
    · rw [List.find?_cons_of_pos _ (by simp [hc])] at hf
      cases hf
      rw [replaceFirst, if_pos (by simp [hc])]
      exact List.find?_cons_of_pos _ (by simp [hnd, hc])
    · rw [List.find?_cons_of_neg _ (by simp [hc])] at hf
      rw [replaceFirst, if_neg (by simp [hc])]
      rw [List.find?_cons_of_neg _ (by simp [hc])]
      exact ih hf

theorem find?_replaceFirst_other (cs : List Node) (nm s : String) (nd : Node)
    (hs : s ≠ nm) (hnd : nd.name = nm) :
    (replaceFirst cs nm nd).find? (fun c => c.name == s) =
      cs.find? (fun c => c.name == s) := by
  induction cs with
  | nil => rfl
  | cons c cs ih =>
    by_cases hc : c.name = nm
    · rw [replaceFirst, if_pos (by simp [hc])]
      rw [List.find?_cons_of_neg _ (by simp [hnd]; exact fun h => hs h.symm)]
      rw [List.find?_cons_of_neg _ (by simp [hc]; exact fun h => hs h.symm)]
    · rw [replaceFirst, if_neg (by simp [hc])]
      by_cases hcs : c.name = s
      · rw [List.find?_cons_of_pos _ (by simp [hcs]), List.find?_cons_of_pos _ (by simp [hcs])]
      · rw [List.find?_cons_of_neg _ (by simp [hcs]), List.find?_cons_of_neg _ (by simp [hcs])]
        exact ih

theorem replaceFirst_self (cs : List Node) (nm : String) (ex : Node)
    (hf : cs.find? (fun c => c.name == nm) = some ex) :
    replaceFirst cs nm ex = cs := by
  induction cs with
  | nil => rfl
  | cons c cs ih =>
    by_cases hc : c.name = nm
    · rw [List.find?_cons_of_pos _ (by simp [hc])] at hf
      cases hf
      rw [replaceFirst, if_pos (by simp [hc])]
    · rw [List.find?_cons_of_neg _ (by simp [hc])] at hf
      rw [replaceFirst, if_neg (by simp [hc]), ih hf]

theorem map_name_replaceFirst (cs : List Node) (nm : String) (nd : Node)
    (hnd : nd.name = nm) :
    (replaceFirst cs nm nd).map Node.name = cs.map Node.name := by
  induction cs with
  | nil => rfl
  | cons c cs ih =>
    by_cases hc : c.name = nm
    · rw [replaceFirst, if_pos (by simp [hc])]
      simp [hnd, hc]
    · rw [replaceFirst, if_neg (by simp [hc])]
      simp [ih]

theorem mem_replaceFirst {cs : List Node} {nm : String} {nd x : Node}
    (hx : x ∈ replaceFirst cs nm nd) : x = nd ∨ x ∈ cs := by
  induction cs with
  | nil => simp [replaceFirst] at hx
  | cons c cs ih =>
    rw [replaceFirst] at hx
    by_cases hc : c.name = nm
    · rw [if_pos (by simp [hc])] at hx
      rcases List.mem_cons.mp hx with h | h
      · exact Or.inl h
      · exact Or.inr (List.mem_cons_of_mem _ h)
    · rw [if_neg (by simp [hc])] at hx
      rcases List.mem_cons.mp hx with h | h
      · exact Or.inr (h ▸ List.mem_cons_self _ _)
      · rcases ih h with h' | h'
        · exact Or.inl h'
        · exact Or.inr (List.mem_cons_of_mem _ h')

theorem insertParts_fields {zipDir : Bool} {parts : List String} {t t' : Node}
    (h : insertParts zipDir t parts = some t') :
    t'.name = t.name ∧ t'.path = t.path ∧ t'.type = t.type := by
  cases parts with
  | nil =>
    rw [insertParts] at h
    cases h
    exact ⟨rfl, rfl, rfl⟩
  | cons part rest =>
    cases t with
    | file n p => rw [insertParts] at h; cases h
    | dir n p cs =>
      rw [insertParts] at h
      rcases hf : cs.find? (fun child => child.name == part) with _ | ex <;>
        rw [hf] at h <;>
        rcases hd : (zipDir || !rest.isEmpty) with _ | _ <;>
        simp only [hd, Bool.false_eq_true, if_false, if_true] at h
      · cases h; exact ⟨rfl, rfl, rfl⟩
      · rcases hi : insertParts zipDir (Node.dir part (p ++ "/" ++ part) []) rest with _ | nd <;>
          rw [hi] at h
        · cases h
        · cases h; exact ⟨rfl, rfl, rfl⟩
      · cases h; exact ⟨rfl, rfl, rfl⟩
      · rcases hi : insertParts zipDir ex rest with _ | ex' <;> rw [hi] at h
        · cases h
        · cases h; exact ⟨rfl, rfl, rfl⟩

theorem memKind_nil (t : Node) : memKind t [] = some t.type := by
  cases t <;> rfl

theorem memKind_cons_dir (n p : String) (cs : List Node) (s : String)
    (rest : List String) :
    memKind (.dir n p cs) (s :: rest) =
      match cs.find? (fun child => child.name == s) with
      | some c => memKind c rest
      | none => none := rfl

theorem memKind_cons_dir_some {cs : List Node} {s : String} {c : Node}
    (n p : String) (rest : List String)
    (hf : cs.find? (fun child => child.name == s) = some c) :
    memKind (.dir n p cs) (s :: rest) = memKind c rest := by
  rw [memKind_cons_dir, hf]

theorem memKind_cons_dir_none {cs : List Node} {s : String}
    (n p : String) (rest : List String)
    (hf : cs.find? (fun child => child.name == s) = none) :
    memKind (.dir n p cs) (s :: rest) = none := by
  rw [memKind_cons_dir, hf]

@[simp] theorem impliedKind_nil_right (parts : List String) (zipDir : Bool) :
    impliedKind parts zipDir [] = none := by
  simp [impliedKind]

@[simp] theorem impliedKind_nil_parts (zipDir : Bool) (p : List String) :
    impliedKind [] zipDir p = none := by
  unfold impliedKind
  by_cases hp : p = [] <;> simp [hp]

theorem impliedKind_cons_mismatch {s part : String} (h : s ≠ part)
    (rest : List String) (zipDir : Bool) (q : List String) :
    impliedKind (part :: rest) zipDir (s :: q) = none := by
  rw [impliedKind, if_neg]
  rintro ⟨-, hpre⟩
  exact h (List.cons_prefix_cons.mp hpre).1

theorem impliedKind_cons_cons (part : String) (rest : List String) (zipDir : Bool)
    {q : List String} (hq : q ≠ []) :
    impliedKind (part :: rest) zipDir (part :: q) = impliedKind rest zipDir q := by
  unfold impliedKind
  by_cases hpre : q <+: rest
  · have hc1 : (part :: q) ≠ [] ∧ (part :: q) <+: (part :: rest) :=
      ⟨List.cons_ne_nil _ _, List.cons_prefix_cons.mpr ⟨rfl, hpre⟩⟩
    have hc2 : q ≠ [] ∧ q <+: rest := ⟨hq, hpre⟩
    rw [if_pos hc1, if_pos hc2]
    have hlen : ((part :: q).length < (part :: rest).length) ↔
        (q.length < rest.length) := by
      simp [Nat.succ_lt_succ_iff]
    exact congrArg some (if_congr (or_congr_right hlen) rfl rfl)
  · rw [if_neg (by rintro ⟨-, hp⟩; exact hpre (List.cons_prefix_cons.mp hp).2),
      if_neg (by rintro ⟨-, hp⟩; exact hpre hp)]

theorem impliedKind_single (part : String) (rest : List String) (zipDir : Bool) :
    impliedKind (part :: rest) zipDir [part] =
      some (if (zipDir || !rest.isEmpty) = true then NodeType.directory
            else NodeType.file) := by
  unfold impliedKind
  have hc1 : ([part] : List String) ≠ [] ∧ ([part] : List String) <+: (part :: rest) :=
    ⟨List.cons_ne_nil _ _, List.cons_prefix_cons.mpr ⟨rfl, List.nil_prefix⟩⟩
  rw [if_pos hc1]
  have hiff : (zipDir = true ∨ ([part] : List String).length < (part :: rest).length) ↔
      ((zipDir || !rest.isEmpty) = true) := by
    cases zipDir <;> cases rest <;> simp
  exact congrArg some (if_congr hiff rfl rfl)

@[simp] theorem oElse_none_right {α : Type} (a : Option α) : oElse a none = a := by
  cases a <;> rfl

theorem impliedKind_none_outside {parts p : List String} (h : ¬ p <+: parts)
    (zipDir : Bool) :
    impliedKind parts zipDir p = none := by
  rw [impliedKind, if_neg]
  rintro ⟨-, hp⟩
  exact h hp

/-- The central accounting lemma for one entry walk: afterwards, looking
up any segment path finds what was there before, or else the kind the
entry implies for that path. -/
theorem memKind_insertParts (zipDir : Bool) :
    ∀ (parts : List String) (t t' : Node),
      insertParts zipDir t parts = some t' →
      ∀ p : List String,
        memKind t' p = oElse (memKind t p) (impliedKind parts zipDir p) := by
  intro parts
  induction parts with
  | nil =>
    intro t t' h p
    rw [insertParts] at h
    cases h
    rw [impliedKind_nil_parts, oElse_none_right]
  | cons part rest ih =>
    intro t t' h p
    cases t with
    | file n pa => rw [insertParts] at h; cases h
    | dir n pa cs =>
      rw [insertParts] at h
      rcases hf : cs.find? (fun child => child.name == part) with _ | ex <;> rw [hf] at h
      · -- no existing child named part
        rcases hd : (zipDir || !rest.isEmpty) with _ | _ <;>
          simp only [hd, Bool.false_eq_true, if_false, if_true] at h
        · -- last segment of a file entry: push a file leaf
          have hrest : rest = [] := by cases rest <;> simp_all
          cases h
          subst hrest
          cases p with
          | nil => rw [memKind_nil, memKind_nil]; rfl
          | cons s q =>
            by_cases hs : s = part
            · subst hs
              have hfa : (cs ++ [Node.file s (pa ++ "/" ++ s)]).find?
                  (fun child => child.name == s) =
                  some (Node.file s (pa ++ "/" ++ s)) := by
                rw [List.find?_append, hf, Option.none_or]
                exact List.find?_cons_of_pos _ (by simp [Node.name])
              rw [memKind_cons_dir_some _ _ _ hfa, memKind_cons_dir_none _ _ _ hf,
                oElse_none]
              cases q with
              | nil =>
                have hzip : zipDir = false := by cases zipDir <;> simp_all
                subst hzip
                rw [memKind_nil, impliedKind_single]
                simp [Node.type]
              | cons s' q' =>
                rw [impliedKind_none_outside
                  (by rintro hp; rcases List.cons_prefix_cons.mp hp with ⟨-, hp2⟩; simp at hp2)]
                rfl
            · have hfa : (cs ++ [Node.file part (pa ++ "/" ++ part)]).find?
                  (fun child => child.name == s) =
                  cs.find? (fun child => child.name == s) := by
                rw [List.find?_append,
                  List.find?_cons_of_neg _ (by simp [Node.name]; exact fun hh => hs hh.symm),
                  List.find?_nil, Option.or_none]
              rw [memKind_cons_dir, memKind_cons_dir, hfa,
                impliedKind_cons_mismatch hs, oElse_none_right]
        · -- create a directory node and keep walking inside it
          rcases hi : insertParts zipDir (Node.dir part (pa ++ "/" ++ part) []) rest
            with _ | nd <;> rw [hi] at h
          · cases h
          · cases h
            obtain ⟨hname, hpath, htype⟩ := insertParts_fields hi
            have hname' : nd.name = part := by simpa [Node.name] using hname
            have htype' : nd.type = NodeType.directory := by simpa [Node.type] using htype
            cases p with
            | nil => rw [memKind_nil, memKind_nil]; rfl
            | cons s q =>
              by_cases hs : s = part
              · subst hs
                have hfa : (cs ++ [nd]).find? (fun child => child.name == s) =
                    some nd := by
                  rw [List.find?_append, hf, Option.none_or]
                  exact List.find?_cons_of_pos _ (by simp [hname'])
                rw [memKind_cons_dir_some _ _ _ hfa, memKind_cons_dir_none _ _ _ hf,
                  oElse_none, ih _ _ hi]
                cases q with
                | nil =>
                  rw [memKind_nil, impliedKind_nil_right, oElse_none_right,
                    impliedKind_single]
                  simp [hd, Node.type]
                | cons s' q' =>
                  rw [impliedKind_cons_cons _ _ _ (List.cons_ne_nil _ _)]
                  have hfresh : memKind (Node.dir s (pa ++ "/" ++ s) []) (s' :: q') =
                      none :=
                    memKind_cons_dir_none _ _ _ rfl
                  rw [hfresh, oElse_none]
              · have hfa : (cs ++ [nd]).find? (fun child => child.name == s) =
                    cs.find? (fun child => child.name == s) := by
                  rw [List.find?_append,
                    List.find?_cons_of_neg _
                      (by simp [hname']; exact fun hh => hs hh.symm),
                    List.find?_nil, Option.or_none]
                rw [memKind_cons_dir, memKind_cons_dir, hfa,
                  impliedKind_cons_mismatch hs, oElse_none_right]
      · -- an existing child named part is reused
        have hx : ex.name = part := by
          have := List.find?_some hf
          simpa using this
        rcases hd : (zipDir || !rest.isEmpty) with _ | _ <;>
          simp only [hd, Bool.false_eq_true, if_false, if_true] at h
        · -- file entry whose last segment already exists: nothing happens
          have hrest : rest = [] := by cases rest <;> simp_all
          cases h
          subst hrest
          cases p with
          | nil => rw [memKind_nil]; rfl
          | cons s q =>
            by_cases hs : s = part
            · subst hs
              rw [memKind_cons_dir_some _ _ _ hf]
              cases q with
              | nil => rw [memKind_nil]; rfl
              | cons s' q' =>
                rw [impliedKind_none_outside
                  (by rintro hp; rcases List.cons_prefix_cons.mp hp with ⟨-, hp2⟩; simp at hp2),
                  oElse_none_right]
            · rw [impliedKind_cons_mismatch hs, oElse_none_right]
        · -- keep walking inside the existing child
          rcases hi : insertParts zipDir ex rest with _ | ex' <;> rw [hi] at h
          · cases h
          · cases h
            obtain ⟨hname, hpath, htype⟩ := insertParts_fields hi
            cases p with
            | nil => rw [memKind_nil, memKind_nil]; rfl
            | cons s q =>
              by_cases hs : s = part
              · subst hs
                have hfa : (replaceFirst cs s ex').find? (fun child => child.name == s) =
                    some ex' :=
                  find?_replaceFirst_same cs s ex' ex hf hname
                rw [memKind_cons_dir_some _ _ _ hfa, memKind_cons_dir_some _ _ _ hf,
                  ih _ _ hi]
                cases q with
                | nil =>
                  rw [impliedKind_nil_right, oElse_none_right, memKind_nil]
                  rfl
                | cons s' q' =>
                  rw [impliedKind_cons_cons _ _ _ (List.cons_ne_nil _ _)]
              · have hfa : (replaceFirst cs part ex').find? (fun child => child.name == s) =
                    cs.find? (fun child => child.name == s) :=
                  find?_replaceFirst_other cs part s ex' hs (hname.trans hx)
                rw [memKind_cons_dir, memKind_cons_dir, hfa,
                  impliedKind_cons_mismatch hs, oElse_none_right]

/-! ### Invariant preservation along the entry walk -/

theorem namesNodupList_iff (cs : List Node) :
    namesNodupList cs ↔ ∀ c ∈ cs, namesNodup c := by
  induction cs with
  | nil => simp [namesNodupList]
  | cons c cs ih => simp [namesNodupList, ih]

theorem pathsOkList_iff (cs : List Node) :
    pathsOkList cs ↔ ∀ c ∈ cs, pathsOk c := by
  induction cs with
  | nil => simp [pathsOkList]
  | cons c cs ih => simp [pathsOkList, ih]

theorem sortStructure_name (t : Node) : (sortStructure t).name = t.name := by
  cases t <;> rfl

theorem sortStructure_path (t : Node) : (sortStructure t).path = t.path := by
  cases t <;> rfl

theorem sortStructure_type (t : Node) : (sortStructure t).type = t.type := by
  cases t <;> rfl

theorem namesNodup_insertParts (zipDir : Bool) :
    ∀ (parts : List String) (t t' : Node),
      insertParts zipDir t parts = some t' → namesNodup t → namesNodup t' := by
  intro parts
  induction parts with
  | nil =>
    intro t t' h hn
    rw [insertParts] at h
    cases h
    exact hn
  | cons part rest ih =>
    intro t t' h hn
    cases t with
    | file n pa => rw [insertParts] at h; cases h
    | dir n pa cs =>
      rw [insertParts] at h
      rw [namesNodup] at hn
      obtain ⟨hnd, hlist⟩ := hn
      rcases hf : cs.find? (fun child => child.name == part) with _ | ex <;> rw [hf] at h
      · have hnotin : part ∉ cs.map Node.name := by
          intro hmem
          rcases List.mem_map.mp hmem with ⟨c, hc, hcn⟩
          have := List.find?_eq_none.mp hf c hc
          simp [hcn] at this
        rcases hd : (zipDir || !rest.isEmpty) with _ | _ <;>
          simp only [hd, Bool.false_eq_true, if_false, if_true] at h
        · cases h
          rw [namesNodup]
          constructor
          · rw [List.map_append, List.map_singleton, ← List.concat_eq_append]
            exact List.Nodup.concat (by simpa [Node.name] using hnotin) hnd
          · rw [namesNodupList_iff]
            intro c hc
            rcases List.mem_append.mp hc with hc | hc
            · exact (namesNodupList_iff cs).mp hlist c hc
            · rw [List.mem_singleton] at hc
              subst hc
              trivial
        · rcases hi : insertParts zipDir (Node.dir part (pa ++ "/" ++ part) []) rest
            with _ | nd <;> rw [hi] at h
          · cases h
          · cases h
            obtain ⟨hname, -, -⟩ := insertParts_fields hi
            have hname' : nd.name = part := by simpa [Node.name] using hname
            rw [namesNodup]
            constructor
            · rw [List.map_append, List.map_singleton, ← List.concat_eq_append]
              exact List.Nodup.concat (by simpa [hname'] using hnotin) hnd
            · rw [namesNodupList_iff]
              intro c hc
              rcases List.mem_append.mp hc with hc | hc
              · exact (namesNodupList_iff cs).mp hlist c hc
              · rw [List.mem_singleton] at hc
                subst hc
                exact ih _ _ hi (by rw [namesNodup]; exact ⟨List.nodup_nil, trivial⟩)
      · have hx : ex.name = part := by simpa using List.find?_some hf
        rcases hd : (zipDir || !rest.isEmpty) with _ | _ <;>
          simp only [hd, Bool.false_eq_true, if_false, if_true] at h
        · cases h
          rw [namesNodup]
          exact ⟨hnd, hlist⟩
        · rcases hi : insertParts zipDir ex rest with _ | ex' <;> rw [hi] at h
          · cases h
          · cases h
            obtain ⟨hname, -, -⟩ := insertParts_fields hi
            rw [namesNodup]
            constructor
            · rw [map_name_replaceFirst cs part ex' (hname.trans hx)]
              exact hnd
            · rw [namesNodupList_iff]
              intro c hc
              rcases mem_replaceFirst hc with hc | hc
              · subst hc
                exact ih _ _ hi
                  ((namesNodupList_iff cs).mp hlist ex (List.mem_of_find?_eq_some hf))
              · exact (namesNodupList_iff cs).mp hlist c hc

theorem pathsOk_insertParts (zipDir : Bool) :
    ∀ (parts : List String) (t t' : Node),
      insertParts zipDir t parts = some t' → pathsOk t → pathsOk t' := by
  intro parts
  induction parts with
  | nil =>
    intro t t' h hn
    rw [insertParts] at h
    cases h
    exact hn
  | cons part rest ih =>
    intro t t' h hn
    cases t with
    | file n pa => rw [insertParts] at h; cases h
    | dir n pa cs =>
      rw [insertParts] at h
      rw [pathsOk] at hn
      obtain ⟨hpaths, hplist⟩ := hn
      rcases hf : cs.find? (fun child => child.name == part) with _ | ex <;> rw [hf] at h
      · rcases hd : (zipDir || !rest.isEmpty) with _ | _ <;>
          simp only [hd, Bool.false_eq_true, if_false, if_true] at h
        · cases h
          rw [pathsOk]
          constructor
          · intro c hc
            rcases List.mem_append.mp hc with hc | hc
            · exact hpaths c hc
            · rw [List.mem_singleton] at hc
              subst hc
              rfl
          · rw [pathsOkList_iff]
            intro c hc
            rcases List.mem_append.mp hc with hc | hc
            · exact (pathsOkList_iff cs).mp hplist c hc
            · rw [List.mem_singleton] at hc
              subst hc
              trivial
        · rcases hi : insertParts zipDir (Node.dir part (pa ++ "/" ++ part) []) rest
            with _ | nd <;> rw [hi] at h
          · cases h
          · cases h
            obtain ⟨hname, hpath, -⟩ := insertParts_fields hi
            have hname' : nd.name = part := by simpa [Node.name] using hname
            have hpath' : nd.path = pa ++ "/" ++ part := by simpa [Node.path] using hpath
            rw [pathsOk]
            constructor
            · intro c hc
              rcases List.mem_append.mp hc with hc | hc
              · exact hpaths c hc
              · rw [List.mem_singleton] at hc
                subst hc
                rw [hpath', hname']
            · rw [pathsOkList_iff]
              intro c hc
              rcases List.mem_append.mp hc with hc | hc
              · exact (pathsOkList_iff cs).mp hplist c hc
              · rw [List.mem_singleton] at hc
                subst hc
                exact ih _ _ hi (by rw [pathsOk]; exact ⟨by intro c hc; simp at hc, trivial⟩)
      · have hx : ex.name = part := by simpa using List.find?_some hf
        rcases hd : (zipDir || !rest.isEmpty) with _ | _ <;>
          simp only [hd, Bool.false_eq_true, if_false, if_true] at h
        · cases h
          rw [pathsOk]
          exact ⟨hpaths, hplist⟩
        · rcases hi : insertParts zipDir ex rest with _ | ex' <;> rw [hi] at h
          · cases h
          · cases h
            obtain ⟨hname, hpath, -⟩ := insertParts_fields hi
            rw [pathsOk]
            constructor
            · intro c hc
              rcases mem_replaceFirst hc with hc | hc
              · subst hc
                rw [hpath, hname]
                exact hpaths ex (List.mem_of_find?_eq_some hf)
              · exact hpaths c hc
            · rw [pathsOkList_iff]
              intro c hc
              rcases mem_replaceFirst hc with hc | hc
              · subst hc
                exact ih _ _ hi
                  ((pathsOkList_iff cs).mp hplist ex (List.mem_of_find?_eq_some hf))
              · exact (pathsOkList_iff cs).mp hplist c hc

theorem namesNodup_extractEntries :
    ∀ (entries : List (String × Bool)) (t t' : Node),
      extractEntries t entries = some t' → namesNodup t → namesNodup t' := by
  intro entries
  induction entries with
  | nil =>
    intro t t' h hn
    rw [extractEntries] at h
    cases h
    exact hn
  | cons e es ih =>
    intro t t' h hn
    rw [extractEntries] at h
    rcases hi : insertParts e.2 t (splitParts e.1) with _ | t1 <;> rw [hi] at h
    · cases h
    · exact ih _ _ h (namesNodup_insertParts _ _ _ _ hi hn)

theorem pathsOk_extractEntries :
    ∀ (entries : List (String × Bool)) (t t' : Node),
      extractEntries t entries = some t' → pathsOk t → pathsOk t' := by
  intro entries
  induction entries with
  | nil =>
    intro t t' h hn
    rw [extractEntries] at h
    cases h
    exact hn
  | cons e es ih =>
    intro t t' h hn
    rw [extractEntries] at h
    rcases hi : insertParts e.2 t (splitParts e.1) with _ | t1 <;> rw [hi] at h
    · cases h
    · exact ih _ _ h (pathsOk_insertParts _ _ _ _ hi hn)

theorem namesNodup_sortStructure : ∀ t, namesNodup t → namesNodup (sortStructure t) := by
  intro t
  induction t using node_ind with
  | hfile n p => intro h; exact h
  | hdir n p cs ihs =>
    intro hn
    rw [namesNodup] at hn
    obtain ⟨hnd, hlist⟩ := hn
    rw [sortStructure, namesNodup]
    constructor
    · have hperm : List.Perm ((sortChildren (sortStructureList cs)).map Node.name)
          (cs.map Node.name) := by
        have h1 : List.Perm (sortChildren (sortStructureList cs)) (sortStructureList cs) :=
          List.perm_insertionSort NodeLe _
        have h2 : (sortStructureList cs).map Node.name = cs.map Node.name := by
          rw [sortStructureList_eq_map, List.map_map]
          exact List.map_congr_left (fun c _ => sortStructure_name c)
        exact h2 ▸ h1.map Node.name
      exact hperm.nodup_iff.mpr hnd
    · rw [namesNodupList_iff]
      intro c hc
      rw [sortChildren, (List.perm_insertionSort NodeLe _).mem_iff,
        sortStructureList_eq_map, List.mem_map] at hc
      obtain ⟨x, hx, rfl⟩ := hc
      exact ihs x hx ((namesNodupList_iff cs).mp hlist x hx)

theorem pathsOk_sortStructure : ∀ t, pathsOk t → pathsOk (sortStructure t) := by
  intro t
  induction t using node_ind with
  | hfile n p => intro h; exact h
  | hdir n p cs ihs =>
    intro hn
    rw [pathsOk] at hn
    obtain ⟨hpaths, hplist⟩ := hn
    rw [sortStructure, pathsOk]
    constructor
    · intro c hc
      rw [sortChildren, (List.perm_insertionSort NodeLe _).mem_iff,
        sortStructureList_eq_map, List.mem_map] at hc
      obtain ⟨x, hx, rfl⟩ := hc
      rw [sortStructure_path, sortStructure_name]
      exact hpaths x hx
    · rw [pathsOkList_iff]
      intro c hc
      rw [sortChildren, (List.perm_insertionSort NodeLe _).mem_iff,
        sortStructureList_eq_map, List.mem_map] at hc
      obtain ⟨x, hx, rfl⟩ := hc
      exact ihs x hx ((pathsOkList_iff cs).mp hplist x hx)

/-! ### Claim theorems about creation kinds, idempotent merge, paths -/

/-- C6: along one archive entry walk, any node the walk creates (present
afterwards at a segment path where nothing existed before) sits at a
prefix of the entry's segment list; it is a directory whenever its
segment is not the last, and at the last segment it is a directory
exactly when the entry's own dir flag is set. -/
theorem created_node_kind_by_flag_and_position
    (zipDir : Bool) (parts : List String) (t t' : Node)
    (h : insertParts zipDir t parts = some t')
    (p : List String) (k : NodeType)
    (hnew : memKind t p = none) (hk : memKind t' p = some k) :
    p <+: parts ∧
      (p.length < parts.length → k = NodeType.directory) ∧
      (p.length = parts.length → (k = NodeType.directory ↔ zipDir = true)) := by
  have heq := memKind_insertParts zipDir parts t t' h p
  rw [hk, hnew, oElse_none, impliedKind] at heq
  by_cases hcond : p ≠ [] ∧ p <+: parts
  · rw [if_pos hcond] at heq
    have hk2 : k = if zipDir = true ∨ p.length < parts.length then NodeType.directory
        else NodeType.file := Option.some.inj heq
    refine ⟨hcond.2, ?_, ?_⟩
    · intro hlt
      rw [hk2, if_pos (Or.inr hlt)]
    · intro hlen
      rw [hk2]
      by_cases hz : zipDir = true
      · rw [if_pos (Or.inl hz)]
        exact ⟨fun _ => hz, fun _ => rfl⟩
      · rw [if_neg (fun hor => hor.elim hz (fun hlt' => (by omega : False)))]
        exact ⟨fun hfd => NodeType.noConfusion hfd, fun hz' => absurd hz' hz⟩
  · rw [if_neg hcond] at heq
    cases heq

/-- Witness for C6: inserting the non-directory entry a/b.txt into the
fresh archive root creates a directory at segment path [a] (a proper
prefix) and a file at [a, b.txt] (the full path, flag unset). -/
theorem created_node_kind_witness :
    ((["a"] : List String) <+: ["a", "b.txt"] ∧
        ((["a"] : List String).length < (["a", "b.txt"] : List String).length →
          NodeType.directory = NodeType.directory) ∧
        ((["a"] : List String).length = (["a", "b.txt"] : List String).length →
          (NodeType.directory = NodeType.directory ↔ false = true))) ∧
      ((["a", "b.txt"] : List String) <+: ["a", "b.txt"] ∧
        ((["a", "b.txt"] : List String).length <
            (["a", "b.txt"] : List String).length →
          NodeType.file = NodeType.directory) ∧
        ((["a", "b.txt"] : List String).length =
            (["a", "b.txt"] : List String).length →
          (NodeType.file = NodeType.directory ↔ false = true))) :=
  ⟨created_node_kind_by_flag_and_position false ["a", "b.txt"] (zipRoot "t.zip")
      (Node.dir "t" "" [Node.dir "a" "/a" [Node.file "b.txt" "/a/b.txt"]])
      rfl ["a"] NodeType.directory rfl rfl,
    created_node_kind_by_flag_and_position false ["a", "b.txt"] (zipRoot "t.zip")
      (Node.dir "t" "" [Node.dir "a" "/a" [Node.file "b.txt" "/a/b.txt"]])
      rfl ["a", "b.txt"] NodeType.file rfl rfl⟩

/-- C4: the four-entry archive builds exactly one directory a holding
one file b.txt and one directory c holding one file d.txt (children
shown after the sort pass, directories first); and in general every tree
the archive builder returns has no duplicate sibling names — an entry
naming an existing child reuses it. -/
theorem archive_merge_idempotent :
    extractBuild "a.zip"
        [("a/", true), ("a/b.txt", false), ("a/c/", true), ("a/c/d.txt", false)] =
      some (Node.dir "a" ""
        [Node.dir "a" "/a"
          [Node.dir "c" "/a/c" [Node.file "d.txt" "/a/c/d.txt"],
           Node.file "b.txt" "/a/b.txt"]]) ∧
      (∀ (fileName : String) (entries : List (String × Bool)) (t : Node),
        extractBuild fileName entries = some t → namesNodup t) := by
  constructor
  · rfl
  · intro fileName entries t h
    rw [extractBuild] at h
    rcases he : extractEntries (zipRoot fileName) entries with _ | t0 <;> rw [he] at h
    · cases h
    · cases h
      refine namesNodup_sortStructure t0 ?_
      refine namesNodup_extractEntries entries _ _ he ?_
      rw [zipRoot, namesNodup]
      exact ⟨List.nodup_nil, trivial⟩

/-- Witness for C4's general part at the four-entry input. -/
theorem archive_merge_idempotent_witness :
    namesNodup (Node.dir "a" ""
      [Node.dir "a" "/a"
        [Node.dir "c" "/a/c" [Node.file "d.txt" "/a/c/d.txt"],
         Node.file "b.txt" "/a/b.txt"]]) :=
  archive_merge_idempotent.2 "a.zip"
    [("a/", true), ("a/b.txt", false), ("a/c/", true), ("a/c/d.txt", false)] _ rfl

/-! ### Path shape of the directory builder (C2 amended) -/

theorem readDirectoryStructure_name (e : FsEntry) (cp : String) :
    (readDirectoryStructure e cp).name = e.name := by
  cases e with
  | file n => rfl
  | dir n listing => rcases listing with _ | (_ | ⟨b, bs⟩) <;> rfl

theorem readDirectoryStructure_path (e : FsEntry) (cp : String) :
    (readDirectoryStructure e cp).path = dirPath cp e.name := by
  cases e with
  | file n => rfl
  | dir n listing => rcases listing with _ | (_ | ⟨b, bs⟩) <;> rfl

theorem dirPath_of_ne {cp : String} (h : cp ≠ "") (n : String) :
    dirPath cp n = cp ++ "/" ++ n := by
  rw [dirPath, if_neg h]

theorem slash_append_ne_empty (a b : String) : a ++ "/" ++ b ≠ "" := by
  intro h
  have h2 := congrArg String.length h
  rw [String.length_append, String.length_append] at h2
  have h3 : ("/" : String).length = 1 := rfl
  have h4 : ("" : String).length = 0 := rfl
  omega

theorem pathsOk_readEntryItems (items : List FsEntry) (path : String)
    (hne : path ≠ "")
    (hrec : ∀ e ∈ items, ∀ cp, cp ≠ "" → pathsOk (readDirectoryStructure e cp)) :
    ∀ c ∈ readEntryItems items path,
      c.path = path ++ "/" ++ c.name ∧ pathsOk c := by
  induction items with
  | nil => simp [readEntryItems]
  | cons e rest ih =>
    intro c hc
    cases e with
    | dir n listing =>
      rw [readEntryItems] at hc
      rcases List.mem_cons.mp hc with hc | hc
      · subst hc
        constructor
        · rw [readDirectoryStructure_path, readDirectoryStructure_name]
          exact dirPath_of_ne hne _
        · exact hrec _ (List.mem_cons_self _ _) path hne
      · exact ih (fun e he cp h => hrec e (List.mem_cons_of_mem _ he) cp h) c hc
    | file n =>
      rw [readEntryItems] at hc
      rcases List.mem_cons.mp hc with hc | hc
      · subst hc
        exact ⟨rfl, trivial⟩
      · exact ih (fun e he cp h => hrec e (List.mem_cons_of_mem _ he) cp h) c hc

theorem pathsOk_readDirectoryStructure :
    ∀ (e : FsEntry) (cp : String),
      dirPath cp e.name ≠ "" → pathsOk (readDirectoryStructure e cp) := by
  intro e
  induction e using fsentry_ind with
  | hfile n => intro cp hne; trivial
  | hdir n listing ih =>
    intro cp hne
    have hrec : ∀ batch ∈ listing.getD [], ∀ e ∈ batch, ∀ cp', cp' ≠ "" →
        pathsOk (readDirectoryStructure e cp') := by
      intro batch hb e he cp' hcp
      rcases hl : listing with _ | batches
      · rw [hl] at hb; simp at hb
      · refine ih batches hl batch (by rw [hl] at hb; simpa using hb) e he cp' ?_
        rw [dirPath_of_ne hcp]
        exact slash_append_ne_empty _ _
    rcases listing with _ | (_ | ⟨batch, bs⟩)
    · rw [readDirectoryStructure, pathsOk]
      exact ⟨by intro c hc; simp [sortChildren] at hc, trivial⟩
    · rw [readDirectoryStructure, pathsOk]
      exact ⟨by intro c hc; simp [sortChildren] at hc, trivial⟩
    · rw [readDirectoryStructure, pathsOk]
      have hmem : ∀ c ∈ sortChildren (readEntryItems batch (dirPath cp n)),
          c.path = dirPath cp n ++ "/" ++ c.name ∧ pathsOk c := by
        intro c hc
        rw [sortChildren, (List.perm_insertionSort NodeLe _).mem_iff] at hc
        exact pathsOk_readEntryItems batch (dirPath cp n) hne
          (fun e he cp' hcp => hrec batch (by simp) e he cp' hcp) c hc
      constructor
      · intro c hc
        exact (hmem c hc).1
      · rw [pathsOkList_iff]
        intro c hc
        exact (hmem c hc).2

/-- C2 (amended): at every level of every tree either builder returns, a
child's path is its parent's path, a slash and the child's name — also
for the archive root, whose path is the empty string, so its children
carry a leading slash rather than their bare name.  For the directory
builder this is stated for any root whose own joined path is nonempty
(the builder is invoked with an entry name and empty base path). -/
theorem child_path_is_parent_path_slash_name :
    (∀ (fileName : String) (entries : List (String × Bool)) (t : Node),
        extractBuild fileName entries = some t → pathsOk t) ∧
      (∀ (e : FsEntry) (cp : String),
        dirPath cp e.name ≠ "" → pathsOk (readDirectoryStructure e cp)) := by
  constructor
  · intro fileName entries t h
    rw [extractBuild] at h
    rcases he : extractEntries (zipRoot fileName) entries with _ | t0 <;> rw [he] at h
    · cases h
    · cases h
      refine pathsOk_sortStructure t0 ?_
      refine pathsOk_extractEntries entries _ _ he ?_
      rw [zipRoot, pathsOk]
      exact ⟨by intro c hc; simp at hc, trivial⟩
  · exact pathsOk_readDirectoryStructure

/-- Witness for C2 (amended) on the one-entry archive and a one-file
directory. -/
theorem child_path_is_parent_path_slash_name_witness :
    pathsOk (Node.dir "r" "" [Node.file "a.txt" "/a.txt"]) ∧
      pathsOk (readDirectoryStructure (.dir "top" (some [[.file "f.txt"]])) "") :=
  ⟨child_path_is_parent_path_slash_name.1 "r.zip" [("a.txt", false)] _ rfl,
    child_path_is_parent_path_slash_name.2 (.dir "top" (some [[.file "f.txt"]])) ""
      (by decide)⟩

/-! ### Order insensitivity of the archive builder (C10) -/

theorem oElse_assoc {α : Type} (a b c : Option α) :
    oElse (oElse a b) c = oElse a (oElse b c) := by
  cases a <;> rfl

theorem findSome?_append_oElse {α β : Type} (l1 l2 : List α) (f : α → Option β) :
    (l1 ++ l2).findSome? f = oElse (l1.findSome? f) (l2.findSome? f) := by
  rw [List.findSome?_append]
  cases l1.findSome? f <;> rfl

theorem impliedKind_some_bounds {parts : List String} {zipDir : Bool}
    {p : List String} {k : NodeType} (h : impliedKind parts zipDir p = some k) :
    p ≠ [] ∧ p <+: parts := by
  by_cases hc : p ≠ [] ∧ p <+: parts
  · exact hc
  · rw [impliedKind, if_neg hc] at h
    cases h

theorem noConflict_agree {E : List (String × Bool)} (hnc : NoConflict E)
    {e1 e2 : String × Bool} (h1 : e1 ∈ E) (h2 : e2 ∈ E)
    {p : List String} {k1 k2 : NodeType}
    (hk1 : segKind e1 p = some k1) (hk2 : segKind e2 p = some k2) : k1 = k2 := by
  have hpre := impliedKind_some_bounds hk1
  have hmem : p ∈ (splitParts e1.1).inits := (List.mem_inits _ _).mpr hpre.2
  have := hnc e1 h1 e2 h2 p hmem
  rw [hk1, hk2] at this
  exact this

theorem noConflict_perm {E E' : List (String × Bool)} (h : List.Perm E E')
    (hnc : NoConflict E) : NoConflict E' :=
  fun e1 h1 e2 h2 p hp => hnc e1 (h.symm.subset h1) e2 (h.symm.subset h2) p hp

theorem findSome?_perm_of_agree {E E' : List (String × Bool)}
    (hperm : List.Perm E E') (f : (String × Bool) → Option NodeType)
    (hag : ∀ e1 ∈ E, ∀ e2 ∈ E, ∀ k1 k2, f e1 = some k1 → f e2 = some k2 → k1 = k2) :
    E.findSome? f = E'.findSome? f := by
  rcases hE : E.findSome? f with _ | k
  · rcases hE' : E'.findSome? f with _ | k'
    · rfl
    · obtain ⟨e, he, hfe⟩ := List.exists_of_findSome?_eq_some hE'
      have := List.findSome?_eq_none_iff.mp hE e (hperm.symm.subset he)
      rw [hfe] at this
      cases this
  · obtain ⟨e, he, hfe⟩ := List.exists_of_findSome?_eq_some hE
    rcases hE' : E'.findSome? f with _ | k'
    · have := List.findSome?_eq_none_iff.mp hE' e (hperm.subset he)
      rw [hfe] at this
      cases this
    · obtain ⟨e', he', hfe'⟩ := List.exists_of_findSome?_eq_some hE'
      exact congrArg some (hag e he e' (hperm.symm.subset he') k k' hfe hfe')

theorem insertParts_success (zipDir : Bool) :
    ∀ (parts : List String) (t : Node),
      t.type = NodeType.directory →
      (∀ p, memKind t p = some NodeType.file →
        impliedKind parts zipDir p ≠ some NodeType.directory) →
      ∃ t', insertParts zipDir t parts = some t' := by
  intro parts
  induction parts with
  | nil =>
    intro t _ _
    exact ⟨t, by rw [insertParts]⟩
  | cons part rest ih =>
    intro t htype hsafe
    cases t with
    | file n pa => cases htype
    | dir n pa cs =>
      rw [insertParts]
      rcases hf : cs.find? (fun child => child.name == part) with _ | ex <;> rw [hf]
      · rcases hd : (zipDir || !rest.isEmpty) with _ | _ <;>
          simp only [hd, Bool.false_eq_true, if_false, if_true]
        · exact ⟨_, rfl⟩
        · obtain ⟨nd, hnd⟩ := ih (Node.dir part (pa ++ "/" ++ part) []) rfl
            (by
              intro p hp
              cases p with
              | nil => rw [memKind_nil] at hp; simp [Node.type] at hp
              | cons s q => simp [memKind] at hp)
          rw [hnd]
          exact ⟨_, rfl⟩
      · rcases hd : (zipDir || !rest.isEmpty) with _ | _ <;>
          simp only [hd, Bool.false_eq_true, if_false, if_true]
        · exact ⟨_, rfl⟩
        · cases ex with
          | file exn exp =>
            cases rest with
            | nil =>
              rw [insertParts]
              exact ⟨_, rfl⟩
            | cons r rs =>
              exfalso
              refine hsafe [part] ?_ ?_
              · rw [memKind_cons_dir_some _ _ _ hf, memKind_nil]
                rfl
              · rw [impliedKind_single, hd]
                simp
          | dir exn exp excs =>
            obtain ⟨ex', hex'⟩ := ih (Node.dir exn exp excs) rfl
              (by
                intro p hp
                cases p with
                | nil =>
                  rw [memKind_nil] at hp
                  simp [Node.type] at hp
                | cons s q =>
                  have hmem : memKind (Node.dir n pa cs) (part :: s :: q) =
                      some NodeType.file := by
                    rw [memKind_cons_dir_some _ _ _ hf]
                    exact hp
                  have := hsafe (part :: s :: q) hmem
                  rw [impliedKind_cons_cons _ _ _ (List.cons_ne_nil _ _)] at this
                  exact this)
            rw [hex']
            exact ⟨_, rfl⟩

theorem extractEntries_fields :
    ∀ (entries : List (String × Bool)) (t t' : Node),
      extractEntries t entries = some t' →
      t'.name = t.name ∧ t'.path = t.path ∧ t'.type = t.type := by
  intro entries
  induction entries with
  | nil =>
    intro t t' h
    rw [extractEntries] at h
    cases h
    exact ⟨rfl, rfl, rfl⟩
  | cons e es ih =>
    intro t t' h
    rw [extractEntries] at h
    rcases hi : insertParts e.2 t (splitParts e.1) with _ | t1 <;> rw [hi] at h
    · cases h
    · obtain ⟨h1, h2, h3⟩ := ih _ _ h
      obtain ⟨h4, h5, h6⟩ := insertParts_fields hi
      exact ⟨h1.trans h4, h2.trans h5, h3.trans h6⟩

/-- Folding a conflict-free entry list over a tree whose lookup is
described by the already-processed entries succeeds and extends the
description. -/
theorem extractEntries_spec :
    ∀ (E processed : List (String × Bool)) (t : Node),
      NoConflict (processed ++ E) →
      t.type = NodeType.directory →
      (∀ p, memKind t p =
        oElse (rootMem p) (processed.findSome? (fun e => segKind e p))) →
      ∃ t', extractEntries t E = some t' ∧
        ∀ p, memKind t' p =
          oElse (rootMem p) ((processed ++ E).findSome? (fun e => segKind e p)) := by
  intro E
  induction E with
  | nil =>
    intro processed t _ _ hchar
    refine ⟨t, rfl, ?_⟩
    rw [List.append_nil]
    exact hchar
  | cons e es ih =>
    intro processed t hnc htype hchar
    have hsafe : ∀ p, memKind t p = some NodeType.file →
        impliedKind (splitParts e.1) e.2 p ≠ some NodeType.directory := by
      intro p hp hdir
      rw [hchar p] at hp
      cases p with
      | nil => rw [rootMem] at hp; cases hp
      | cons s q =>
        rw [rootMem, oElse_none] at hp
        obtain ⟨e1, he1, hfe1⟩ := List.exists_of_findSome?_eq_some hp
        have he1' : e1 ∈ processed ++ e :: es := List.mem_append_left _ he1
        have he' : e ∈ processed ++ e :: es :=
          List.mem_append_right _ (List.mem_cons_self _ _)
        have := noConflict_agree hnc he1' he' hfe1 hdir
        cases this
    obtain ⟨t1, ht1⟩ := insertParts_success e.2 (splitParts e.1) t htype hsafe
    have hchar1 : ∀ p, memKind t1 p =
        oElse (rootMem p) ((processed ++ [e]).findSome? (fun e' => segKind e' p)) := by
      intro p
      rw [memKind_insertParts _ _ _ _ ht1 p, hchar p, oElse_assoc,
        findSome?_append_oElse]
      congr 1
      rw [List.findSome?_cons, ← segKind]
      cases hk : segKind e p with
      | none => rfl
      | some k => rfl
    have htype1 : t1.type = NodeType.directory := by
      rw [(insertParts_fields ht1).2.2, htype]
    have hassoc : (processed ++ [e]) ++ es = processed ++ e :: es := by
      rw [List.append_assoc, List.singleton_append]
    obtain ⟨t', ht', hchar'⟩ := ih (processed ++ [e]) t1 (by rw [hassoc]; exact hnc)
      htype1 hchar1
    refine ⟨t', ?_, ?_⟩
    · rw [extractEntries, ht1]
      exact ht'
    · rw [← hassoc]
      exact hchar'

/-! ### Sorted trees with identical lookup structure are equal -/

theorem nodeLe_antisymm_name {a b : Node} (h1 : NodeLe a b) (h2 : NodeLe b a) :
    a.name = b.name := by
  unfold NodeLe at h1 h2
  by_cases hab : a.type = b.type
  · rw [if_pos hab] at h1
    rw [if_pos hab.symm] at h2
    exact le_antisymm h1 h2
  · rw [if_neg hab] at h1
    rw [if_neg (fun h => hab h.symm)] at h2
    exact absurd (h1.trans h2.symm) hab

theorem find?_eq_some_of_mem_nodup :
    ∀ {l : List Node} {c : Node} {s : String},
      (l.map Node.name).Nodup → c ∈ l → c.name = s →
      l.find? (fun x => x.name == s) = some c := by
  intro l
  induction l with
  | nil => intro c s _ hc _; simp at hc
  | cons a l ih =>
    intro c s hnd hc hcs
    rw [List.map_cons, List.nodup_cons] at hnd
    rcases List.mem_cons.mp hc with rfl | hc
    · exact List.find?_cons_of_pos _ (by simp [hcs])
    · by_cases ha : a.name = s
      · exfalso
        apply hnd.1
        rw [ha, ← hcs]
        exact List.mem_map_of_mem Node.name hc
      · rw [List.find?_cons_of_neg _ (by simp [ha])]
        exact ih hnd.2 hc hcs

theorem find?_eq_of_perm_nodup {l1 l2 : List Node} (hperm : List.Perm l1 l2)
    (hnd : (l1.map Node.name).Nodup) (s : String) :
    l1.find? (fun c => c.name == s) = l2.find? (fun c => c.name == s) := by
  rcases hf : l1.find? (fun c => c.name == s) with _ | c
  · rcases hf2 : l2.find? (fun c => c.name == s) with _ | c2
    · rw [hf, hf2]
    · have hc2 : c2 ∈ l2 := List.mem_of_find?_eq_some hf2
      exact absurd (List.find?_some hf2)
        (List.find?_eq_none.mp hf c2 (hperm.symm.subset hc2))
  · have hc : c ∈ l1 := List.mem_of_find?_eq_some hf
    have hcs : c.name = s := by simpa using List.find?_some hf
    rw [hf]
    exact (find?_eq_some_of_mem_nodup ((hperm.map Node.name).nodup_iff.mp hnd)
      (hperm.subset hc) hcs).symm

theorem memKind_sortStructure :
    ∀ (p : List String) (t : Node), namesNodup t →
      memKind (sortStructure t) p = memKind t p := by
  intro p
  induction p with
  | nil => intro t _; rw [memKind_nil, memKind_nil, sortStructure_type]
  | cons s q ih =>
    intro t hn
    cases t with
    | file n pa => rfl
    | dir n pa cs =>
      rw [namesNodup] at hn
      obtain ⟨hnd, hlist⟩ := hn
      rw [sortStructure]
      have hnd' : ((sortStructureList cs).map Node.name).Nodup := by
        have hmapeq : (sortStructureList cs).map Node.name = cs.map Node.name := by
          rw [sortStructureList_eq_map, List.map_map]
          exact List.map_congr_left (fun c _ => sortStructure_name c)
        rw [hmapeq]
        exact hnd
      have hfind : (sortChildren (sortStructureList cs)).find? (fun c => c.name == s) =
          (sortStructureList cs).find? (fun c => c.name == s) :=
        (find?_eq_of_perm_nodup (List.perm_insertionSort NodeLe _).symm hnd' s).symm
      rw [memKind_cons_dir, memKind_cons_dir, hfind, sortStructureList_eq_map,
        List.find?_map]
      have hpred : ((fun c : Node => c.name == s) ∘ sortStructure) =
          (fun c : Node => c.name == s) := by
        funext c
        simp [Function.comp, sortStructure_name]
      rw [hpred]
      cases hf : cs.find? (fun c => c.name == s) with
      | none => rfl
      | some c =>
        have hcn : namesNodup c :=
          (namesNodupList_iff cs).mp hlist c (List.mem_of_find?_eq_some hf)
        simp only [Option.map_some']
        exact ih c hcn

theorem memKind_singleton_cases {n p : String} {cs : List Node} {s : String}
    {k : NodeType} (h : memKind (Node.dir n p cs) [s] = some k) :
    ∃ c ∈ cs, c.name = s ∧ c.type = k := by
  rcases hf : cs.find? (fun c => c.name == s) with _ | c
  · rw [memKind_cons_dir_none _ _ _ hf] at h
    cases h
  · rw [memKind_cons_dir_some _ _ _ hf, memKind_nil] at h
    exact ⟨c, List.mem_of_find?_eq_some hf, by simpa using List.find?_some hf,
      Option.some.inj h⟩

theorem sorted_children_ext :
    ∀ (l1 l2 : List Node),
      List.Sorted NodeLe l1 → List.Sorted NodeLe l2 →
      (l1.map Node.name).Nodup → (l2.map Node.name).Nodup →
      (∀ s, (∃ c ∈ l1, c.name = s) ↔ (∃ c ∈ l2, c.name = s)) →
      (∀ c1 ∈ l1, ∀ c2 ∈ l2, c1.name = c2.name → c1 = c2) →
      l1 = l2 := by
  intro l1
  induction l1 with
  | nil =>
    intro l2 _ _ _ _ hnames _
    cases l2 with
    | nil => rfl
    | cons b l2 =>
      exfalso
      obtain ⟨c, hc, -⟩ := (hnames b.name).mpr ⟨b, List.mem_cons_self _ _, rfl⟩
      simp at hc
  | cons a l1 ih =>
    intro l2 hs1 hs2 hnd1 hnd2 hnames hpair
    cases l2 with
    | nil =>
      exfalso
      obtain ⟨c, hc, -⟩ := (hnames a.name).mp ⟨a, List.mem_cons_self _ _, rfl⟩
      simp at hc
    | cons b l2 =>
      have hbmem : b ∈ a :: l1 := by
        obtain ⟨c, hc, hcn⟩ := (hnames b.name).mpr ⟨b, List.mem_cons_self _ _, rfl⟩
        have := hpair c hc b (List.mem_cons_self _ _) hcn
        rwa [this] at hc
      have hamem : a ∈ b :: l2 := by
        obtain ⟨d, hd, hdn⟩ := (hnames a.name).mp ⟨a, List.mem_cons_self _ _, rfl⟩
        have := hpair a (List.mem_cons_self _ _) d hd hdn.symm
        rwa [← this] at hd
      have hab : a = b := by
        rcases List.mem_cons.mp hbmem with hba | hbt
        · exact hba.symm
        rcases List.mem_cons.mp hamem with hab' | hat
        · exact hab'
        have h1 : NodeLe a b := (List.sorted_cons.mp hs1).1 b hbt
        have h2 : NodeLe b a := (List.sorted_cons.mp hs2).1 a hat
        exact hpair a (List.mem_cons_self _ _) b (List.mem_cons_self _ _)
          (nodeLe_antisymm_name h1 h2)
      subst hab
      rw [List.map_cons, List.nodup_cons] at hnd1 hnd2
      have htail : l1 = l2 := by
        apply ih l2 (List.sorted_cons.mp hs1).2 (List.sorted_cons.mp hs2).2
          hnd1.2 hnd2.2
        · intro s
          constructor
          · rintro ⟨c, hc, rfl⟩
            obtain ⟨c2, hc2, hc2n⟩ := (hnames c.name).mp
              ⟨c, List.mem_cons_of_mem _ hc, rfl⟩
            rcases List.mem_cons.mp hc2 with hc2a | hc2t
            · exfalso
              apply hnd1.1
              have han : a.name = c.name := by rw [← hc2a]; exact hc2n
              rw [han]
              exact List.mem_map_of_mem Node.name hc
            · exact ⟨c2, hc2t, hc2n⟩
          · rintro ⟨c, hc, rfl⟩
            obtain ⟨c2, hc2, hc2n⟩ := (hnames c.name).mpr
              ⟨c, List.mem_cons_of_mem _ hc, rfl⟩
            rcases List.mem_cons.mp hc2 with hc2a | hc2t
            · exfalso
              apply hnd2.1
              have han : a.name = c.name := by rw [← hc2a]; exact hc2n
              rw [han]
              exact List.mem_map_of_mem Node.name hc
            · exact ⟨c2, hc2t, hc2n⟩
        · intro c1 hc1 c2 hc2 hn12
          exact hpair c1 (List.mem_cons_of_mem _ hc1) c2 (List.mem_cons_of_mem _ hc2) hn12
      rw [htail]

theorem tree_ext :
    ∀ t1, treeSorted t1 → namesNodup t1 → pathsOk t1 →
      ∀ t2, treeSorted t2 → namesNodup t2 → pathsOk t2 →
      t1.name = t2.name → t1.path = t2.path →
      (∀ p, memKind t1 p = memKind t2 p) → t1 = t2 := by
  intro t1
  induction t1 using node_ind with
  | hfile n p =>
    intro _ _ _ t2 _ _ _ hname hpath hmem
    have h0 := hmem []
    rw [memKind_nil, memKind_nil] at h0
    cases t2 with
    | file n2 p2 =>
      simp only [Node.name] at hname
      simp only [Node.path] at hpath
      rw [hname, hpath]
    | dir n2 p2 cs2 => simp [Node.type] at h0
  | hdir n p cs1 ihs =>
    intro hs1 hn1 hp1 t2 hs2 hn2 hp2 hname hpath hmem
    have h0 := hmem []
    rw [memKind_nil, memKind_nil] at h0
    cases t2 with
    | file n2 p2 => simp [Node.type] at h0
    | dir n2 p2 cs2 =>
      simp only [Node.name] at hname
      simp only [Node.path] at hpath
      subst hname
      subst hpath
      rw [treeSorted] at hs1 hs2
      rw [namesNodup] at hn1 hn2
      rw [pathsOk] at hp1 hp2
      have hcs : cs1 = cs2 := by
        apply sorted_children_ext cs1 cs2 hs1.1 hs2.1 hn1.1 hn2.1
        · intro s
          constructor
          · rintro ⟨c, hc, rfl⟩
            have h1 : memKind (Node.dir n p cs1) [c.name] = some c.type := by
              rw [memKind_cons_dir_some _ _ _
                (find?_eq_some_of_mem_nodup hn1.1 hc rfl), memKind_nil]
            obtain ⟨c2, hc2, hc2n, -⟩ := memKind_singleton_cases ((hmem _).symm.trans h1)
            exact ⟨c2, hc2, hc2n⟩
          · rintro ⟨c, hc, rfl⟩
            have h1 : memKind (Node.dir n p cs2) [c.name] = some c.type := by
              rw [memKind_cons_dir_some _ _ _
                (find?_eq_some_of_mem_nodup hn2.1 hc rfl), memKind_nil]
            obtain ⟨c2, hc2, hc2n, -⟩ := memKind_singleton_cases ((hmem _).trans h1)
            exact ⟨c2, hc2, hc2n⟩
        · intro c1 hc1 c2 hc2 hn12
          refine ihs c1 hc1 ((treeSortedList_iff cs1).mp hs1.2 c1 hc1)
            ((namesNodupList_iff cs1).mp hn1.2 c1 hc1)
            ((pathsOkList_iff cs1).mp hp1.2 c1 hc1)
            c2 ((treeSortedList_iff cs2).mp hs2.2 c2 hc2)
            ((namesNodupList_iff cs2).mp hn2.2 c2 hc2)
            ((pathsOkList_iff cs2).mp hp2.2 c2 hc2)
            hn12 ?_ ?_
          · rw [hp1.1 c1 hc1, hp2.1 c2 hc2, hn12]
          · intro q
            have hL : memKind (Node.dir n p cs1) (c1.name :: q) = memKind c1 q :=
              memKind_cons_dir_some _ _ _
                (find?_eq_some_of_mem_nodup hn1.1 hc1 rfl)
            have hR : memKind (Node.dir n p cs2) (c1.name :: q) = memKind c2 q := by
              rw [hn12]
              exact memKind_cons_dir_some _ _ _
                (find?_eq_some_of_mem_nodup hn2.1 hc2 rfl)
            rw [← hL, ← hR]
            exact hmem _
      rw [hcs]

/-- C10: for entry lists in which no segment path is implied both as a
file and as a directory, the archive builder is insensitive to entry
enumeration order — after the sort pass, any permutation of the entries
produces the identical tree. -/
theorem extract_perm_invariant (fileName : String) (E E' : List (String × Bool))
    (hnc : NoConflict E) (hperm : List.Perm E E') :
    extractBuild fileName E = extractBuild fileName E' := by
  have hnc' : NoConflict E' := noConflict_perm hperm hnc
  have hchar0 : ∀ p : List String, memKind (zipRoot fileName) p =
      oElse (rootMem p) (List.findSome? (fun e => segKind e p) ([] : List (String × Bool))) := by
    intro p
    cases p with
    | nil => rw [memKind_nil]; rfl
    | cons s q =>
      rw [zipRoot, memKind_cons_dir_none _ _ _ (by rw [List.find?_nil])]
      rfl
  have hroot : namesNodup (zipRoot fileName) ∧ pathsOk (zipRoot fileName) := by
    rw [zipRoot, namesNodup, pathsOk]
    exact ⟨⟨List.nodup_nil, trivial⟩, ⟨by intro c hc; simp at hc, trivial⟩⟩
  obtain ⟨t1, he1, hm1⟩ :=
    extractEntries_spec E [] (zipRoot fileName) hnc (by rw [zipRoot]; rfl) hchar0
  obtain ⟨t2, he2, hm2⟩ :=
    extractEntries_spec E' [] (zipRoot fileName) hnc' (by rw [zipRoot]; rfl) hchar0
  rw [extractBuild, he1, extractBuild, he2]
  refine congrArg some ?_
  have hn1 : namesNodup t1 := namesNodup_extractEntries E _ _ he1 hroot.1
  have hn2 : namesNodup t2 := namesNodup_extractEntries E' _ _ he2 hroot.1
  have hp1 : pathsOk t1 := pathsOk_extractEntries E _ _ he1 hroot.2
  have hp2 : pathsOk t2 := pathsOk_extractEntries E' _ _ he2 hroot.2
  have hfields1 := extractEntries_fields E _ _ he1
  have hfields2 := extractEntries_fields E' _ _ he2
  apply tree_ext (sortStructure t1) (treeSorted_sortStructure t1)
    (namesNodup_sortStructure t1 hn1) (pathsOk_sortStructure t1 hp1)
    (sortStructure t2) (treeSorted_sortStructure t2)
    (namesNodup_sortStructure t2 hn2) (pathsOk_sortStructure t2 hp2)
  · rw [sortStructure_name, sortStructure_name, hfields1.1, hfields2.1]
  · rw [sortStructure_path, sortStructure_path, hfields1.2.1, hfields2.2.1]
  · intro p
    rw [memKind_sortStructure p t1 hn1, memKind_sortStructure p t2 hn2, hm1 p, hm2 p]
    have hfs : List.findSome? (fun e => segKind e p) E =
        List.findSome? (fun e => segKind e p) E' :=
      findSome?_perm_of_agree hperm _
        (fun e1 h1 e2 h2 k1 k2 hk1 hk2 => noConflict_agree hnc h1 h2 hk1 hk2)
    rw [List.nil_append, List.nil_append, hfs]

/-- Witness for C10 on a two-entry archive and its transposition. -/
theorem extract_perm_invariant_witness :
    extractBuild "w.zip" [("a/b.txt", false), ("a/", true)] =
      extractBuild "w.zip" [("a/", true), ("a/b.txt", false)] :=
  extract_perm_invariant "w.zip" [("a/b.txt", false), ("a/", true)]
    [("a/", true), ("a/b.txt", false)] (by decide)
    (List.Perm.swap ("a/", true) ("a/b.txt", false) [])

end FolderEx
